import Mathlib

/-!
Shallow embedding of `notebooks/coverage.py` from rapids-single-cell-examples.

Strings are modelled as `List Char`, dataframes as lists of row structures,
machine integers as `ℤ` with explicit 32-bit wrapping where the source casts
to int32, and the CUDA kernel `expand_interval` as a sequential fold over the
fragment rows (the kernel's grid-stride loop partitions the rows among
threads; each row is processed exactly once).  Fallible numpy / cudf
operations return `Option`.
-/

namespace CoverageModel

/- ===================== Python string primitives ===================== -/

/-- The ASCII whitespace characters removed by Python `str.strip`. -/
def pyIsSpace (c : Char) : Bool :=
  c = ' ' || c = '\t' || c = '\n' || c = '\r' || c = '\x0b' || c = '\x0c'

/-- Python `s.lstrip()`. -/
def lstrip (l : List Char) : List Char := l.dropWhile pyIsSpace

/-- Python `s.rstrip()`. -/
def rstrip (l : List Char) : List Char := (l.reverse.dropWhile pyIsSpace).reverse

/-- Python `s.strip()`: remove whitespace at both ends. -/
def pstrip (l : List Char) : List Char := lstrip (rstrip l)

/-- Python `s.split(TAB)`: split a string at every tab character; the empty
string yields one empty field, a trailing tab yields a trailing empty field. -/
def splitTab : List Char → List (List Char)
  | [] => [[]]
  | c :: rest =>
    let r := splitTab rest
    if c = '\t' then [] :: r
    else (c :: r.headD []) :: r.tail

/- ===================== tabix region queries ===================== -/

/-- Abstract model of a tabix-indexed fragment file: for a 1-based inclusive
region `chrom:start-end` the index yields the matching file lines, without
their trailing newline.  Both query paths of the source consult the same
index with the same region string, so they are modelled over the same map. -/
abbrev TabixFile := List Char → ℤ → ℤ → List (List Char)

/-- `query_fragments`: the pytabix `querys` call yields each matching line
already split into its tab-separated fields. -/
def query_fragments (f : TabixFile) (chrom : List Char) (start end_ : ℤ) :
    List (List (List Char)) :=
  (f chrom start end_).map splitTab

/-- `tabix_query`: the `tabix` subprocess writes each matching line followed
by a newline to stdout; the source decodes, strips and splits each line. -/
def tabix_query (f : TabixFile) (chrom : List Char) (start end_ : ℤ) :
    List (List (List Char)) :=
  (f chrom start end_).map (fun line => splitTab (pstrip (line ++ ['\n'])))

/-- A demonstration fragment file for the witnesses: a single record with
interior tabs separating whitespace-free fields. -/
def demoFile : TabixFile := fun _ _ _ => [['a', '\t', 'b']]

/-- A demonstration fragment file with one five-field record. -/
def demoFragFile : TabixFile := fun _ _ _ =>
  [['c', '\t', '1', '\t', '3', '\t', 'B', '\t', '1']]

/- ===================== count_fragments ===================== -/

/-- `count_fragments`: the file is read as tab-separated rows, column 3 (the
cell barcode) is kept, and `value_counts` pairs every distinct barcode with
its number of occurrences, sorted by decreasing count. -/
def count_fragments (rows : List (List (List Char))) : List (List Char × ℕ) :=
  let barcodes := rows.map (fun r => r.getD 3 [])
  let counts := barcodes.dedup.map (fun b => (b, barcodes.count b))
  List.insertionSort (fun p q => q.2 ≤ p.2) counts

/- ===================== read_fragments ===================== -/

/-- Decimal integer parser for a string column cast to an integer dtype:
an optional leading minus sign followed by at least one digit. -/
def parseDigitsAux : List Char → ℕ → Option ℕ
  | [], acc => some acc
  | c :: rest, acc =>
    if c.isDigit then parseDigitsAux rest (acc * 10 + (c.toNat - 48)) else none

/-- Parse a whole string as a (possibly negative) decimal integer. -/
def parseZ (l : List Char) : Option ℤ :=
  match l with
  | [] => none
  | c :: rest =>
    if c = '-' then
      match rest with
      | [] => none
      | _ :: _ => (parseDigitsAux rest 0).map (fun n => -(n : ℤ))
    else (parseDigitsAux l 0).map (fun n => (n : ℤ))

/-- Wrap an integer into the signed 32-bit range, as `astype(np.int32)` does. -/
def toInt32 (z : ℤ) : ℤ := (z + 2 ^ 31) % 2 ^ 32 - 2 ^ 31

/-- One row of the dataframe built by `read_fragments`: the first four fields
of a fragment record plus the positional index `row_num` and the fragment
length `len = end - start` computed on the int32 columns. -/
structure ReadRow where
  chrom : List Char
  start : ℤ
  end_ : ℤ
  cell : List Char
  row_num : ℤ
  len : ℤ
deriving DecidableEq

/-- Build the `read_fragments` row for the record at positional index `i`:
keep columns 0..3, cast `start` and `end` to int32 (failing like `astype`
does on an unparseable string), and append `row_num` and `len`. -/
def rowOf (i : ℕ) (r : List (List Char)) : Option ReadRow :=
  match parseZ (r.getD 1 []), parseZ (r.getD 2 []) with
  | some s, some e =>
    let s32 := toInt32 s
    let e32 := toInt32 e
    some ⟨r.getD 0 [], s32, e32, r.getD 3 [], (i : ℤ), toInt32 (e32 - s32)⟩
  | _, _ => none

/-- `read_fragments`: query the padded region `start - pad .. end + pad`
through `tabix_query`, require five columns per record (the dataframe is
built with five column names), drop the fifth, and add `row_num` and `len`. -/
def read_fragments (f : TabixFile) (chrom : List Char) (start end_ pad : ℤ) :
    Option (List ReadRow) :=
  let records := tabix_query f chrom (start - pad) (end_ + pad)
  if records.all (fun r => r.length == 5) then
    records.enum.mapM (fun p => rowOf p.1 p.2)
  else none

/- ===================== the expand_interval kernel ===================== -/

/-- The three output columns the kernel writes into, as total maps so that
every write the kernel performs is recorded, wherever it lands. -/
structure Bufs where
  istart : ℤ → ℤ
  iend : ℤ → ℤ
  iindex : ℤ → ℤ

/-- Pointwise array write. -/
def upd (f : ℤ → ℤ) (j v : ℤ) : ℤ → ℤ := fun x => if x = j then v else f x

/-- One kernel iteration: write the three columns at slot `j`. -/
def writeB (b : Bufs) (j s e idx : ℤ) : Bufs :=
  ⟨upd b.istart j s, upd b.iend j e, upd b.iindex j idx⟩

/-- Iteration count of the Python loop `for j in range(start, stop, step)`
for a positive step; the kernel is only ever invoked with step 1. -/
def pyLen (start stop step : ℤ) : ℕ :=
  if 0 < step then ((stop - start + step - 1).tdiv step).toNat else 0

/-- The values produced by `range(start, stop, step)` for a positive step. -/
def pyRange (start stop step : ℤ) : List ℤ :=
  (List.range (pyLen start stop step)).map (fun k => start + (k : ℤ) * step)

/-- The kernel body for one fragment row: `first_index = end_index - (end -
start)`; iteration `k` of the inner loop writes slot `first_index + k * step`
with interval start `start + k`, interval end `start + k + 1` and the row
index (the running `chrom_start` advances by one every iteration). -/
def expandRow (s e idx endi step : ℤ) (b : Bufs) : Bufs :=
  (List.range (pyLen (endi - (e - s)) endi step)).foldl
    (fun acc (k : ℕ) => writeB acc ((endi - (e - s)) + (k : ℤ) * step)
      (s + (k : ℤ)) (s + (k : ℤ) + 1) idx) b

/-- One kernel input row: one entry each of the four device arrays. -/
structure KRow where
  ks : ℤ
  ke : ℤ
  kidx : ℤ
  kendi : ℤ
deriving DecidableEq

/-- Pair up the four equally long device arrays passed to the kernel. -/
def zip4 : List ℤ → List ℤ → List ℤ → List ℤ → List KRow
  | s :: ss, e :: es, i :: is_, n :: ns => ⟨s, e, i, n⟩ :: zip4 ss es is_ ns
  | _, _, _, _ => []

/-- Process a list of fragment rows in order.  The CUDA grid-stride loop
partitions the rows among threads, each row being handled exactly once; with
the disjoint write regions produced by a cumulative-sum `end_index` the
sequential order is immaterial. -/
def expandRows (step : ℤ) (rows : List KRow) (b : Bufs) : Bufs :=
  rows.foldl (fun acc r => expandRow r.ks r.ke r.kidx r.kendi step acc) b

/-- `expand_interval`: run the kernel over all fragment rows. -/
def expand_interval (start end_ index end_index : List ℤ) (step : ℤ)
    (b : Bufs) : Bufs :=
  expandRows step (zip4 start end_ index end_index) b

/-- Inclusive cumulative sum, as `Series.cumsum()`. -/
def cumsumFrom (acc : ℤ) : List ℤ → List ℤ
  | [] => []
  | a :: l => (acc + a) :: cumsumFrom (acc + a) l

/-- `reads[len].cumsum()`. -/
def cumsum (l : List ℤ) : List ℤ := cumsumFrom 0 l

/- ===================== get_coverages ===================== -/

/-- One row of the dataframe handed to `get_coverages`: the `read_fragments`
columns plus the caller-added `cluster` column. -/
structure Read where
  chrom : List Char
  start : ℤ
  end_ : ℤ
  cell : List Char
  cluster : ℤ
  row_num : ℤ
  len : ℤ
deriving DecidableEq

/-- `reads.sort_values(by = row_num)`. -/
def sortByRowNum (rs : List Read) : List Read :=
  List.insertionSort (fun a b => a.row_num ≤ b.row_num) rs

/-- `sorted(np.unique(reads[cluster]))`: the distinct cluster values in
ascending order. -/
def sortedClusters (rs : List Read) : List ℤ :=
  List.insertionSort (fun a b => a ≤ b) ((rs.map (fun r => r.cluster)).dedup)

/-- A `groupby([chrom, start, end, cluster])` key of the merged expanded
coverage dataframe. -/
structure GKey where
  gchrom : List Char
  gstart : ℤ
  gend : ℤ
  gcluster : ℤ
deriving DecidableEq

/-- Zero-initialised kernel buffers, as the `np.zeros` columns. -/
def bufs0 : Bufs := ⟨fun _ => 0, fun _ => 0, fun _ => 0⟩

/-- `get_coverages`.  The result pairs the (unmodified) argument dataframe
with the coverage array `x`, making the frame behaviour of the call explicit:
the source copies `reads_orig` first and every subsequent operation — the
sort, the in-place column drop and the merge — acts on the copy `reads`.

The source allocates only `window_size` rows for the expanded-coverage
columns although the kernel fills `reads[len].sum()` slots (the variable
`expanded_coverage_size` is computed and never used): writes at slots
`j ≥ window_size` fall outside the dataframe and slots never written keep
their `np.zeros` value `(0, 0, 0)`.  The merge on `row_num` is an inner
join; the groupby count of a key is the number of merged rows carrying it,
and the per-cluster assignment `x[i][coords] = values` keeps only coords
inside the window. -/
def get_coverages (reads_orig : List Read) (_chrom : List Char)
    (wstart wend pad : ℤ) : List Read × List (List ℕ) :=
  let reads := reads_orig
  let reads := sortByRowNum reads
  let clusters := sortedClusters reads
  let window_size : ℤ := wend - wstart + 2 * pad
  let b := expand_interval (reads.map (fun r => r.start))
      (reads.map (fun r => r.end_)) (reads.map (fun r => r.row_num))
      (cumsum (reads.map (fun r => r.len))) 1 bufs0
  let merged := (List.range window_size.toNat).filterMap (fun j =>
      match reads.find? (fun r => decide (r.row_num = b.iindex (j : ℤ))) with
      | some r => some (⟨r.chrom, b.istart (j : ℤ), b.iend (j : ℤ),
          r.cluster⟩ : GKey)
      | none => none)
  let keys := merged.dedup
  let x := clusters.map (fun c =>
      (keys.filter (fun k => decide (k.gcluster = c))).foldl (fun row k =>
          let coord := k.gstart - wstart + pad
          if 0 ≤ coord ∧ coord < window_size then
            row.set coord.toNat (merged.count k)
          else row)
        (List.replicate window_size.toNat 0))
  (reads_orig, x)

/- ===================== reshape_with_padding ===================== -/

/-- numpy basic slice `row[st : st + len]` for a nonnegative start: clamped
at the end of the row, never an error. -/
def npSliceRow (row : List ℤ) (st len : ℤ) : List ℤ :=
  (row.drop st.toNat).take len.toNat

/-- `np.stack` of the extracted windows followed by the assignment into an
`n × padded` block of `reshaped_coverage`.  `np.stack` of an empty list
raises; the assignment succeeds when the stacked shape is exactly
`(n, padded)` or broadcasts from `(1, padded)`, and raises otherwise. -/
def npAssignRows (n padded : ℕ) (stacked : List (List ℤ)) :
    Option (List (List ℤ)) :=
  if stacked.length = 0 then none
  else if stacked.length = n ∧ stacked.all (fun r => r.length == padded) then
    some stacked
  else if stacked.length = 1 ∧ stacked.all (fun r => r.length == padded) then
    some (List.replicate n (stacked.headD []))
  else none

/-- `reshape_with_padding`: `n_intervals = int((shape1 - 2*pad) /
interval_size)` (truncating division); the window starts are `[0]` when
`n_intervals == 1` and otherwise `range(0, shape1 - padded_interval_size,
interval_size + pad)`; each cluster's windows are stacked and assigned into
its `n_intervals`-row block. -/
def reshape_with_padding (coverage : List (List ℤ)) (interval_size pad : ℤ) :
    Option (List (List ℤ)) :=
  let padded_interval_size := interval_size + 2 * pad
  let w : ℤ := ((coverage.headD []).length : ℤ)
  let n_intervals : ℤ := (w - 2 * pad).tdiv interval_size
  let interval_starts : List ℤ :=
    if n_intervals = 1 then [0]
    else pyRange 0 (w - padded_interval_size) (interval_size + pad)
  let chunks := coverage.map (fun crow =>
      npAssignRows n_intervals.toNat padded_interval_size.toNat
        (interval_starts.map (fun st => npSliceRow crow st padded_interval_size)))
  (chunks.mapM id).map List.flatten

/- ===================== atacworks_denoise ===================== -/

/-- `np.stack(heads, axis = -1)`: `pred[r][c][k] = heads[k][r][c]`, with the
result shape read off the first head (`np.stack` demands equal shapes). -/
def stack_last (heads : List (List (List ℤ))) : List (List (List ℤ)) :=
  let rows := (heads.headD []).length
  let cols := ((heads.headD []).headD []).length
  (List.range rows).map (fun r =>
    (List.range cols).map (fun c =>
      heads.map (fun h => (h.getD r []).getD c 0)))

/-- `atacworks_denoise`.  The network is abstracted as a function from the
batched input rows to its list of output heads (the tensor moves, the dtype
casts and `unsqueeze` do not change the carried values' shape).  The steps
are: reshape the coverage into padded intervals, run the forward pass, stack
the heads along a last axis, keep the center `range(pad, shape1 - pad)` of
every predicted interval, and reshape to `(C, W - 2*pad, K)` (`np.reshape`
raises when the element count does not match). -/
def atacworks_denoise (coverage : List (List ℤ))
    (model : List (List ℤ) → List (List (List ℤ))) (interval_size pad : ℤ) :
    Option (List (List (List ℤ))) :=
  match reshape_with_padding coverage interval_size pad with
  | none => none
  | some input_arr =>
    let heads := model input_arr
    if heads.length = 0 then none
    else
      let pred := stack_last heads
      let s1 := (pred.headD []).length
      let centered := pred.map (fun prow =>
          (prow.drop pad.toNat).take ((s1 : ℤ) - 2 * pad).toNat)
      let flat := (centered.map List.flatten).flatten
      let cdim := coverage.length
      let wdim := (((coverage.headD []).length : ℤ) - 2 * pad).toNat
      let kdim := heads.length
      if flat.length = cdim * wdim * kdim then
        some ((List.range cdim).map (fun i =>
          (List.range wdim).map (fun j =>
            (List.range kdim).map (fun k =>
              flat.getD ((i * wdim + j) * kdim + k) 0))))
      else none

/- ===================== theorems ===================== -/

/-- C1 (code bug): for the window `chrom = c, start = 0, end = 5, pad = 0`
and the single-fragment dataframe `[c, start 2, end 3, cell -, cluster 0,
row_num 0, len 1]` (which satisfies the claim's hypotheses: integer start <
end, a cluster label, distinct row_num values), `get_coverages` returns
`x = [[4, 0, 1, 0, 0]]`, yet no fragment of cluster 0 contains the genomic
coordinate `start - pad + 0 = 0`.  The four expanded-coverage slots the
kernel never writes keep their `np.zeros` value `(0, 0, row_num 0)`, are
merged with the fragment whose `row_num` is 0 and are counted as coverage 4
at position 0, instead of the 0 fragments actually covering coordinate 0. -/
theorem c1_get_coverages_junk_counts :
    (get_coverages [⟨['c'], 2, 3, [], 0, 0, 1⟩] ['c'] 0 5 0).2 =
      [[4, 0, 1, 0, 0]] ∧
    (([⟨['c'], 2, 3, [], 0, 0, 1⟩] : List Read).filter
        (fun r => decide (r.cluster = 0 ∧ r.start ≤ 0 ∧ 0 < r.end_))).length
      = 0 := by
  constructor
  · rfl
  · decide

/-- C2 (counterexample): with `start = [0, 5, 10]`, `end = [2, 4, 11]`,
`index = [7, 8, 9]`, `end_index` the inclusive cumulative sum `[2, 1, 2]` of
the lengths `end[i] - start[i] = [2, -1, 1]`, and step 1, the claim predicts
that slot `j = end_index[0] - len[0] + 1 = 1` holds
`interval_start[1] = start[0] + 1 = 1`; but fragment 2, whose region
overlaps fragment 0's because of the negative length in between, overwrote
that slot with `interval_start[1] = 10`. -/
theorem c2_expand_interval_counterexample :
    ¬ ((expand_interval [0, 5, 10] [2, 4, 11] [7, 8, 9]
          (cumsum (List.zipWith (fun a b => a - b) [2, 4, 11] [0, 5, 10])) 1
          bufs0).istart
        ((cumsum (List.zipWith (fun a b => a - b) [2, 4, 11]
            [0, 5, 10])).getD 0 0 - ((2 : ℤ) - 0) + 1)
      = 0 + 1) := by
  decide

/-- C3 (code bug): `get_coverages` over the window `start = 0, end = 10,
pad = 0` allocates `window_size = 10 - 0 + 2*0 = 10` rows for the three
expanded-coverage columns, but with the two fragments `[0, 10)`, `[0, 10)`
(`len` sum 20, `end_index = cumsum len = [10, 20]`) the kernel writes slot
15, far past the allocated length: the claim that every written index stays
below `window_size` fails.  (The source even computes the needed size
`expanded_coverage_size = reads[len].sum()` and never uses it.) -/
theorem c3_kernel_writes_past_window :
    (expand_interval [0, 0] [10, 10] [0, 1] (cumsum [10, 10]) 1 bufs0).iend 15
        = 6 ∧
    ¬ ((15 : ℤ) < 10 - 0 + 2 * 0) := by
  decide

/-- C4 (code bug): for `coverage = [[0, 1, ..., 9]]`, `interval_size = 4`
and `pad = 1` (so `W - 2*pad = 8` is the positive multiple `2 * 4` and
`n_intervals = 2`), the claim predicts rows
`[coverage[0, 0:6], coverage[0, 4:10]] = [[0..5], [4..9]]`.  The source
computes the window starts as `range(0, 10 - 6, 4 + 1) = [0]` — stride
`interval_size + pad` and an exclusive stop one window short — stacks a
single window and broadcasts it over both rows, returning the first window
twice. -/
theorem c4_reshape_with_padding_duplicates_window :
    reshape_with_padding [[0, 1, 2, 3, 4, 5, 6, 7, 8, 9]] 4 1 =
      some [[0, 1, 2, 3, 4, 5], [0, 1, 2, 3, 4, 5]] ∧
    ((([0, 1, 2, 3, 4, 5, 6, 7, 8, 9] : List ℤ).drop 4).take 6 =
      [4, 5, 6, 7, 8, 9]) := by
  decide

/-- C5 (code bug): for `coverage` of shape `(1, 12)`, `interval_size = 4`
and `pad = 0` (so `W - 2*pad = 12` is the positive multiple `3 * 4`) and a
one-head model returning its input unchanged (so every head has the input's
shape), `atacworks_denoise` does not return an array of shape
`(1, 12, 1)` — it raises: `reshape_with_padding` extracts
`range(0, 12 - 4, 4) = [0, 4]`, only two windows, and numpy cannot assign a
`(2, 4)` stack into the `(3, 4)` block sized by `n_intervals = 3`. -/
theorem c5_atacworks_denoise_raises :
    atacworks_denoise [[0, 0, 0, 0, 0, 0, 0, 0, 0, 0, 0, 0]]
      (fun m => [m]) 4 0 = none := by
  decide

/-- C10: `get_coverages` returns its argument dataframe unchanged: the
source copies `reads_orig` first, and the sort, the in-place column drop and
the merge are all applied to the copy. -/
theorem c10_get_coverages_preserves_argument (reads_orig : List Read)
    (chrom : List Char) (wstart wend pad : ℤ) :
    (get_coverages reads_orig chrom wstart wend pad).1 = reads_orig := rfl

/-- The two lawful boolean-equality instances on barcodes count alike. -/
theorem count_beq_bridge (l : List (List Char)) (b : List Char) :
    @List.count (List Char) instBEqOfDecidableEq b l = l.count b := by
  induction l with
  | nil => rfl
  | cons a t ih =>
    rw [@List.count_cons _ instBEqOfDecidableEq, List.count_cons, ih]
    by_cases h : b = a
    · simp [h, instBEqOfDecidableEq]
    · simp [h, instBEqOfDecidableEq, beq_eq_false_iff_ne.mpr h]

/-- C7: `count_fragments` pairs every distinct barcode of column 3 with the
number of file lines carrying it: no barcode appears in two rows of the
table, a barcode is in the table exactly when some line carries it, each
table row holds that barcode's line count, and the counts sum to the total
number of lines. -/
theorem c7_count_fragments_table (rows : List (List (List Char))) :
    ((count_fragments rows).map Prod.fst).Nodup ∧
    (∀ b : List Char, b ∈ (count_fragments rows).map Prod.fst ↔
        b ∈ rows.map (fun r => r.getD 3 [])) ∧
    (∀ p ∈ count_fragments rows,
        p.2 = (rows.map (fun r => r.getD 3 [])).count p.1) ∧
    ((count_fragments rows).map Prod.snd).sum = rows.length := by
  classical
  set barcodes := rows.map (fun r => r.getD 3 []) with hb
  have hperm : (count_fragments rows).Perm
      (barcodes.dedup.map (fun b => (b, barcodes.count b))) :=
    List.perm_insertionSort _ _
  have hfst : (barcodes.dedup.map
      (fun b => (b, barcodes.count b))).map Prod.fst = barcodes.dedup := by
    rw [List.map_map]
    exact List.map_id barcodes.dedup
  refine ⟨?_, ?_, ?_, ?_⟩
  · have h1 := (hperm.map Prod.fst)
    rw [hfst] at h1
    exact (List.nodup_dedup barcodes).perm h1.symm
  · intro b
    have h1 := (hperm.map Prod.fst)
    rw [hfst] at h1
    rw [h1.mem_iff, List.mem_dedup]
  · intro p hp
    have hp2 := hperm.mem_iff.mp hp
    rcases List.mem_map.mp hp2 with ⟨b, _, rfl⟩
    rfl
  · have h1 := (hperm.map Prod.snd).sum_eq
    have hsnd : (barcodes.dedup.map
        (fun b => (b, barcodes.count b))).map Prod.snd =
        barcodes.dedup.map (fun b => barcodes.count b) := by
      rw [List.map_map]
      rfl
    rw [h1, hsnd]
    have h2 := List.sum_map_count_dedup_eq_length barcodes
    have h3 : rows.length = barcodes.length := by simp [hb]
    rw [h3]
    simpa [count_beq_bridge] using h2

/-- Dropping the trailing newline the subprocess adds commutes with strip. -/
theorem pstrip_append_newline (l : List Char) :
    pstrip (l ++ ['\n']) = pstrip l := by
  unfold pstrip rstrip
  have h : (l ++ ['\n']).reverse.dropWhile pyIsSpace =
      l.reverse.dropWhile pyIsSpace := by
    rw [List.reverse_append]
    simp [List.dropWhile_cons, pyIsSpace]
  rw [h]

/-- C8: on a tabix-indexed file whose lines carry no leading or trailing
whitespace (as the tab-separated fragment records do), the pytabix path
`query_fragments` and the subprocess path `tabix_query` return the same
list of records in the same order. -/
theorem c8_tabix_query_agrees (f : TabixFile) (chrom : List Char)
    (start end_ : ℤ)
    (h : ∀ line ∈ f chrom start end_, pstrip line = line) :
    tabix_query f chrom start end_ = query_fragments f chrom start end_ := by
  unfold tabix_query query_fragments
  refine List.map_congr_left ?_
  intro l hl
  rw [pstrip_append_newline, h l hl]

/-- Witness for C8 at a concrete one-record file. -/
theorem c8_tabix_query_agrees_witness :
    (∀ line ∈ demoFile ['c'] 1 2, pstrip line = line) ∧
    tabix_query demoFile ['c'] 1 2 = query_fragments demoFile ['c'] 1 2 :=
  ⟨by decide, c8_tabix_query_agrees demoFile ['c'] 1 2 (by decide)⟩

/-- An `Option`-valued `mapM` whose steps all succeed is a plain `map`. -/
theorem mapM_option_eq_map {α β : Type} (g : α → β) :
    ∀ (l : List α) (fn : α → Option β), (∀ x ∈ l, fn x = some (g x)) →
      l.mapM fn = some (l.map g) := by
  intro l
  induction l with
  | nil => intro fn _; rfl
  | cons a t ih =>
    intro fn h
    rw [List.mapM_cons, h a (by simp), ih fn (fun x hx => h x (by simp [hx]))]
    rfl

/-- C9: `read_fragments` queries the padded region `start - pad .. end + pad`
and, when every returned record has five fields with integer `start` and
`end` columns, returns exactly those records restricted to columns chrom,
start, end, cell (the fifth, duplicate-count field dropped), with `row_num`
the record's positional index in the query result, `start` and `end` cast
to 32-bit integers, and `len` their (int32) difference `end - start`. -/
theorem c9_read_fragments_rows (f : TabixFile) (chrom : List Char)
    (start end_ pad : ℤ)
    (h5 : ∀ r ∈ tabix_query f chrom (start - pad) (end_ + pad), r.length = 5)
    (hp : ∀ r ∈ tabix_query f chrom (start - pad) (end_ + pad),
        (parseZ (r.getD 1 [])).isSome ∧ (parseZ (r.getD 2 [])).isSome) :
    read_fragments f chrom start end_ pad =
      some ((tabix_query f chrom (start - pad) (end_ + pad)).enum.map
        (fun p =>
          { chrom := p.2.getD 0 []
            start := toInt32 ((parseZ (p.2.getD 1 [])).getD 0)
            end_ := toInt32 ((parseZ (p.2.getD 2 [])).getD 0)
            cell := p.2.getD 3 []
            row_num := (p.1 : ℤ)
            len := toInt32 (toInt32 ((parseZ (p.2.getD 2 [])).getD 0) -
              toInt32 ((parseZ (p.2.getD 1 [])).getD 0)) })) := by
  unfold read_fragments
  rw [if_pos]
  · apply mapM_option_eq_map
    intro p hpmem
    have hmem : p.2 ∈ tabix_query f chrom (start - pad) (end_ + pad) := by
      have h1 := List.mem_enum_iff_getElem?.mp hpmem
      exact List.getElem?_mem h1
    obtain ⟨h1, h2⟩ := hp p.2 hmem
    obtain ⟨sv, hs⟩ := Option.isSome_iff_exists.mp h1
    obtain ⟨ev, he⟩ := Option.isSome_iff_exists.mp h2
    simp only [rowOf, List.getD_eq_getElem?_getD] at hs he ⊢
    rw [hs, he]
    simp
  · rw [List.all_eq_true]
    intro r hr
    simpa using h5 r hr

/-- Witness for C9 at a one-record file. -/
theorem c9_read_fragments_rows_witness :
    (∀ r ∈ tabix_query demoFragFile ['c'] (1 - 0) (3 + 0), r.length = 5) ∧
    (∀ r ∈ tabix_query demoFragFile ['c'] (1 - 0) (3 + 0),
        (parseZ (r.getD 1 [])).isSome ∧ (parseZ (r.getD 2 [])).isSome) ∧
    read_fragments demoFragFile ['c'] 1 3 0 =
      some [⟨['c'], 1, 3, ['B'], 0, 2⟩] := by
  refine ⟨by decide, by decide, ?_⟩
  have h := c9_read_fragments_rows demoFragFile ['c'] 1 3 0 (by decide)
    (by decide)
  rw [h]
  rfl

/-- Reading a buffer at the slot just written. -/
theorem writeB_at_eq (b : Bufs) (j s e idx : ℤ) :
    (writeB b j s e idx).istart j = s ∧ (writeB b j s e idx).iend j = e ∧
    (writeB b j s e idx).iindex j = idx := by
  simp [writeB, upd]

/-- Reading a buffer anywhere else. -/
theorem writeB_at_ne (b : Bufs) (j s e idx x : ℤ) (h : x ≠ j) :
    (writeB b j s e idx).istart x = b.istart x ∧
    (writeB b j s e idx).iend x = b.iend x ∧
    (writeB b j s e idx).iindex x = b.iindex x := by
  simp [writeB, upd, h]

/-- After the step-1 inner loop of the kernel, slot `first + k` holds the
values written at iteration `k`: later iterations write strictly higher
slots. -/
theorem writeFold_at (first s idx : ℤ) (n : ℕ) (b : Bufs) (k : ℕ)
    (hk : k < n) :
    (((List.range n).foldl (fun acc (k2 : ℕ) =>
        writeB acc (first + (k2 : ℤ) * 1) (s + (k2 : ℤ))
          (s + (k2 : ℤ) + 1) idx)
        b).istart (first + (k : ℤ)) = s + k) ∧
    (((List.range n).foldl (fun acc (k2 : ℕ) =>
        writeB acc (first + (k2 : ℤ) * 1) (s + (k2 : ℤ))
          (s + (k2 : ℤ) + 1) idx)
        b).iend (first + (k : ℤ)) = s + k + 1) ∧
    (((List.range n).foldl (fun acc (k2 : ℕ) =>
        writeB acc (first + (k2 : ℤ) * 1) (s + (k2 : ℤ))
          (s + (k2 : ℤ) + 1) idx)
        b).iindex (first + (k : ℤ)) = idx) := by
  induction n with
  | zero => omega
  | succ n ih =>
    rw [List.range_succ, List.foldl_append]
    simp only [List.foldl_cons, List.foldl_nil]
    by_cases hkn : k = n
    · subst hkn
      have hj : first + (k : ℤ) = first + (k : ℤ) * 1 := by ring
      rw [hj]
      exact writeB_at_eq _ _ _ _ _
    · have hk2 : k < n := by omega
      have hne : first + (k : ℤ) ≠ first + (n : ℤ) * 1 := by
        simp only [mul_one]
        omega
      refine ⟨?_, ?_, ?_⟩
      · rw [(writeB_at_ne _ _ _ _ _ _ hne).1]
        exact (ih hk2).1
      · rw [(writeB_at_ne _ _ _ _ _ _ hne).2.1]
        exact (ih hk2).2.1
      · rw [(writeB_at_ne _ _ _ _ _ _ hne).2.2]
        exact (ih hk2).2.2

/-- The step-1 inner loop never writes below `first`. -/
theorem writeFold_low (first s idx : ℤ) (n : ℕ) (b : Bufs) (j : ℤ)
    (hj : j < first) :
    (((List.range n).foldl (fun acc (k2 : ℕ) =>
        writeB acc (first + (k2 : ℤ) * 1) (s + (k2 : ℤ))
          (s + (k2 : ℤ) + 1) idx)
        b).istart j = b.istart j) ∧
    (((List.range n).foldl (fun acc (k2 : ℕ) =>
        writeB acc (first + (k2 : ℤ) * 1) (s + (k2 : ℤ))
          (s + (k2 : ℤ) + 1) idx)
        b).iend j = b.iend j) ∧
    (((List.range n).foldl (fun acc (k2 : ℕ) =>
        writeB acc (first + (k2 : ℤ) * 1) (s + (k2 : ℤ))
          (s + (k2 : ℤ) + 1) idx)
        b).iindex j = b.iindex j) := by
  induction n with
  | zero => exact ⟨rfl, rfl, rfl⟩
  | succ n ih =>
    rw [List.range_succ, List.foldl_append]
    simp only [List.foldl_cons, List.foldl_nil]
    have hne : j ≠ first + (n : ℤ) * 1 := by
      simp only [mul_one]
      omega
    refine ⟨?_, ?_, ?_⟩
    · rw [(writeB_at_ne _ _ _ _ _ _ hne).1]
      exact ih.1
    · rw [(writeB_at_ne _ _ _ _ _ _ hne).2.1]
      exact ih.2.1
    · rw [(writeB_at_ne _ _ _ _ _ _ hne).2.2]
      exact ih.2.2

/-- With step 1, the inner loop runs `(e - s).toNat` times. -/
theorem pyLen_one (first endi : ℤ) :
    pyLen first endi 1 = (endi - first).toNat := by
  unfold pyLen
  rw [if_pos (by omega)]
  have h : endi - first + 1 - 1 = endi - first := by ring
  rw [h, Int.tdiv_one]

/-- Fragment expansion, one row, step 1: iteration `k` fills slot
`first_index + k`. -/
theorem expandRow_one_at (s e idx endi : ℤ) (b : Bufs) (k : ℕ)
    (hk : (k : ℤ) < e - s) :
    ((expandRow s e idx endi 1 b).istart (endi - (e - s) + k) = s + k) ∧
    ((expandRow s e idx endi 1 b).iend (endi - (e - s) + k) = s + k + 1) ∧
    ((expandRow s e idx endi 1 b).iindex (endi - (e - s) + k) = idx) := by
  unfold expandRow
  rw [pyLen_one]
  apply writeFold_at
  omega

/-- Fragment expansion, one row, step 1, leaves slots below its region
untouched. -/
theorem expandRow_one_low (s e idx endi : ℤ) (b : Bufs) (j : ℤ)
    (hj : j < endi - (e - s)) :
    ((expandRow s e idx endi 1 b).istart j = b.istart j) ∧
    ((expandRow s e idx endi 1 b).iend j = b.iend j) ∧
    ((expandRow s e idx endi 1 b).iindex j = b.iindex j) := by
  unfold expandRow
  exact writeFold_low _ _ _ _ _ _ hj

/-- Unfolding one row of the kernel loop. -/
theorem expandRows_cons (step : ℤ) (r : KRow) (rows : List KRow) (b : Bufs) :
    expandRows step (r :: rows) b =
      expandRows step rows (expandRow r.ks r.ke r.kidx r.kendi step b) := rfl

/-- A slot below the first region of every remaining row survives the rest
of the kernel run. -/
theorem expandRows_one_low (rows : List KRow) (b : Bufs) (j : ℤ)
    (h : ∀ r ∈ rows, j < r.kendi - (r.ke - r.ks)) :
    ((expandRows 1 rows b).istart j = b.istart j) ∧
    ((expandRows 1 rows b).iend j = b.iend j) ∧
    ((expandRows 1 rows b).iindex j = b.iindex j) := by
  induction rows generalizing b with
  | nil => exact ⟨rfl, rfl, rfl⟩
  | cons r rows ih =>
    rw [expandRows_cons]
    have hr := h r (by simp)
    obtain ⟨h1, h2, h3⟩ := expandRow_one_low r.ks r.ke r.kidx r.kendi b j hr
    have hrest := ih (expandRow r.ks r.ke r.kidx r.kendi 1 b)
      (fun r2 hr2 => h r2 (by simp [hr2]))
    rw [h1, h2, h3] at hrest
    exact hrest

/-- When `end_index` is a running cumulative sum of the nonnegative lengths
started at `acc`, every kernel row's write region starts at or above
`acc`. -/
theorem zip4_cumsum_region (ss es is_ : List ℤ) (acc : ℤ)
    (hle : es.length = ss.length) (hli : is_.length = ss.length)
    (hnn : ∀ m, m < ss.length → 0 ≤ es.getD m 0 - ss.getD m 0) :
    ∀ r ∈ zip4 ss es is_
        (cumsumFrom acc (List.zipWith (fun a c => a - c) es ss)),
      acc ≤ r.kendi - (r.ke - r.ks) := by
  induction ss generalizing es is_ acc with
  | nil =>
    cases es with
    | nil => intro r hr; simp [zip4] at hr
    | cons e2 es2 => simp at hle
  | cons s0 ss ih =>
    cases es with
    | nil => simp at hle
    | cons e0 es =>
      cases is_ with
      | nil => simp at hli
      | cons i0 is_ =>
        intro r hr
        simp only [List.zipWith_cons_cons, cumsumFrom, zip4,
          List.mem_cons] at hr
        rcases hr with hr | hr
        · subst hr
          simp
        · have h0 : (0 : ℤ) ≤ e0 - s0 := by
            have := hnn 0 (by simp)
            simpa using this
          have ih2 := ih es is_ (acc + (e0 - s0)) (by simpa using hle)
            (by simpa using hli)
            (fun m hm => by
              have := hnn (m + 1) (by simpa using hm)
              simpa using this)
            r hr
          omega

/-- Kernel correctness over a cumulative sum started at `acc`: with
nonnegative lengths the write regions are pairwise disjoint and every
fragment's slots hold exactly its own unit intervals. -/
theorem expandRows_cumsum_at (s : List ℤ) :
    ∀ (e idx : List ℤ) (acc : ℤ) (b : Bufs) (i k : ℕ),
      e.length = s.length → idx.length = s.length →
      (∀ m, m < s.length → 0 ≤ e.getD m 0 - s.getD m 0) →
      i < s.length → (k : ℤ) < e.getD i 0 - s.getD i 0 →
      ((expandRows 1 (zip4 s e idx
          (cumsumFrom acc (List.zipWith (fun a c => a - c) e s))) b).istart
          ((cumsumFrom acc (List.zipWith (fun a c => a - c) e s)).getD i 0 -
            (e.getD i 0 - s.getD i 0) + k) = s.getD i 0 + k) ∧
      ((expandRows 1 (zip4 s e idx
          (cumsumFrom acc (List.zipWith (fun a c => a - c) e s))) b).iend
          ((cumsumFrom acc (List.zipWith (fun a c => a - c) e s)).getD i 0 -
            (e.getD i 0 - s.getD i 0) + k) = s.getD i 0 + k + 1) ∧
      ((expandRows 1 (zip4 s e idx
          (cumsumFrom acc (List.zipWith (fun a c => a - c) e s))) b).iindex
          ((cumsumFrom acc (List.zipWith (fun a c => a - c) e s)).getD i 0 -
            (e.getD i 0 - s.getD i 0) + k) = idx.getD i 0) := by
  induction s with
  | nil => intro e idx acc b i k hle hli hnn hi hk; simp at hi
  | cons s0 ss ih =>
    intro e idx acc b i k hle hli hnn hi hk
    cases e with
    | nil => simp at hle
    | cons e0 es =>
      cases idx with
      | nil => simp at hli
      | cons i0 is_ =>
        simp only [List.zipWith_cons_cons, cumsumFrom, zip4]
        rw [expandRows_cons]
        cases i with
        | zero =>
          simp only [List.getD_cons_zero] at hk ⊢
          have hpos : acc + (e0 - s0) - (e0 - s0) + (k : ℤ) = acc + k := by
            ring
          rw [hpos]
          have hlow := expandRows_one_low
            (zip4 ss es is_ (cumsumFrom (acc + (e0 - s0))
              (List.zipWith (fun a c => a - c) es ss)))
            (expandRow s0 e0 i0 (acc + (e0 - s0)) 1 b) (acc + k)
            (fun r hr => by
              have := zip4_cumsum_region ss es is_ (acc + (e0 - s0))
                (by simpa using hle) (by simpa using hli)
                (fun m hm => by
                  have := hnn (m + 1) (by simpa using hm)
                  simpa using this) r hr
              omega)
          have hrow := expandRow_one_at s0 e0 i0 (acc + (e0 - s0)) b k hk
          have hpos2 : acc + (e0 - s0) - (e0 - s0) + (k : ℤ) = acc + k := by
            ring
          rw [hpos2] at hrow
          exact ⟨hlow.1.trans hrow.1, hlow.2.1.trans hrow.2.1,
            hlow.2.2.trans hrow.2.2⟩
        | succ i =>
          simp only [List.getD_cons_succ] at hk ⊢
          exact ih es is_ (acc + (e0 - s0))
            (expandRow s0 e0 i0 (acc + (e0 - s0)) 1 b) i k
            (by simpa using hle) (by simpa using hli)
            (fun m hm => by
              have := hnn (m + 1) (by simpa using hm)
              simpa using this)
            (by simpa using hi) hk

/-- C2 (amended: the fragment lengths `end[i] - start[i]` are additionally
required to be nonnegative, as they are for genomic fragments): when
`end_index` is the inclusive cumulative sum of the lengths and step is 1,
slot `j = end_index[i] - len[i] + k` of the output holds
`interval_start[j] = start[i] + k`, `interval_end[j] = start[i] + k + 1`
and `interval_index[j] = index[i]`, for every fragment `i` and every
`k < len[i]`: each fragment is expanded into one unit interval per covered
base, tagged with the fragment's row index. -/
theorem c2_expand_interval_expands_each_fragment (s e idx : List ℤ)
    (b : Bufs) (i k : ℕ)
    (hle : e.length = s.length) (hli : idx.length = s.length)
    (hnn : ∀ m, m < s.length → 0 ≤ e.getD m 0 - s.getD m 0)
    (hi : i < s.length) (hk : (k : ℤ) < e.getD i 0 - s.getD i 0) :
    ((expand_interval s e idx
        (cumsum (List.zipWith (fun a c => a - c) e s)) 1 b).istart
        ((cumsum (List.zipWith (fun a c => a - c) e s)).getD i 0 -
          (e.getD i 0 - s.getD i 0) + k) = s.getD i 0 + k) ∧
    ((expand_interval s e idx
        (cumsum (List.zipWith (fun a c => a - c) e s)) 1 b).iend
        ((cumsum (List.zipWith (fun a c => a - c) e s)).getD i 0 -
          (e.getD i 0 - s.getD i 0) + k) = s.getD i 0 + k + 1) ∧
    ((expand_interval s e idx
        (cumsum (List.zipWith (fun a c => a - c) e s)) 1 b).iindex
        ((cumsum (List.zipWith (fun a c => a - c) e s)).getD i 0 -
          (e.getD i 0 - s.getD i 0) + k) = idx.getD i 0) := by
  unfold expand_interval cumsum
  exact expandRows_cumsum_at s e idx 0 b i k hle hli hnn hi hk

/-- Witness for the amended C2 at the single fragment `[0, 2)`, `k = 1`. -/
theorem c2_expand_interval_expands_each_fragment_witness :
    (∀ m, m < ([0] : List ℤ).length →
      0 ≤ ([2] : List ℤ).getD m 0 - ([0] : List ℤ).getD m 0) ∧
    ((expand_interval [0] [2] [5]
        (cumsum (List.zipWith (fun a c => a - c) [2] [0])) 1 bufs0).istart
        ((cumsum (List.zipWith (fun a c => a - c) [2] [0])).getD 0 0 -
          (([2] : List ℤ).getD 0 0 - ([0] : List ℤ).getD 0 0) + 1) =
        ([0] : List ℤ).getD 0 0 + 1) := by
  refine ⟨by decide, ?_⟩
  exact (c2_expand_interval_expands_each_fragment [0] [2] [5] bufs0 0 1
    (by decide) (by decide) (by decide) (by decide) (by decide)).1

/-- Sorting the copy by `row_num` permutes the rows, so the sorted distinct
cluster list is unchanged. -/
theorem sortedClusters_sortByRowNum (rs : List Read) :
    sortedClusters (sortByRowNum rs) = sortedClusters rs := by
  unfold sortedClusters sortByRowNum
  have hperm : (List.insertionSort (fun a b : ℤ => a ≤ b)
      (((List.insertionSort (fun a b : Read => a.row_num ≤ b.row_num) rs).map
        (fun r => r.cluster)).dedup)).Perm
      (List.insertionSort (fun a b : ℤ => a ≤ b)
        ((rs.map (fun r => r.cluster)).dedup)) := by
    have p1 := List.perm_insertionSort (fun a b : ℤ => a ≤ b)
      (((List.insertionSort (fun a b : Read => a.row_num ≤ b.row_num) rs).map
        (fun r => r.cluster)).dedup)
    have p2 : (((List.insertionSort (fun a b : Read => a.row_num ≤ b.row_num)
        rs).map (fun r => r.cluster)).dedup).Perm
        ((rs.map (fun r => r.cluster)).dedup) :=
      ((List.perm_insertionSort _ rs).map (fun r => r.cluster)).dedup
    have p3 := (List.perm_insertionSort (fun a b : ℤ => a ≤ b)
      ((rs.map (fun r => r.cluster)).dedup)).symm
    exact p1.trans (p2.trans p3)
  exact List.eq_of_perm_of_sorted hperm
    (List.sorted_insertionSort _ _) (List.sorted_insertionSort _ _)

/-- The per-cluster assignment loop never changes the row length. -/
theorem coverage_row_length (merged : List GKey) (wstart pad ws : ℤ)
    (gs : List GKey) : ∀ row0 : List ℕ,
    (gs.foldl (fun row k =>
        let coord := k.gstart - wstart + pad
        if 0 ≤ coord ∧ coord < ws then
          row.set coord.toNat (merged.count k)
        else row) row0).length = row0.length := by
  induction gs with
  | nil => intro row0; rfl
  | cons g gs ih =>
    intro row0
    rw [List.foldl_cons, ih]
    by_cases h : 0 ≤ g.gstart - wstart + pad ∧ g.gstart - wstart + pad < ws
    · simp [h]
    · simp [h]

/-- C6: `get_coverages` returns one row per distinct cluster value of the
input, the row order following the ascending sorted distinct cluster list,
and every row has exactly `end - start + 2*pad` entries. -/
theorem c6_get_coverages_shape (reads : List Read) (chrom : List Char)
    (wstart wend pad : ℤ) (hw : 0 ≤ wend - wstart + 2 * pad) :
    ((get_coverages reads chrom wstart wend pad).2.length =
      (sortedClusters reads).length) ∧
    (∀ row ∈ (get_coverages reads chrom wstart wend pad).2,
      (row.length : ℤ) = wend - wstart + 2 * pad) ∧
    (sortedClusters reads).Sorted (fun a b => a ≤ b) ∧
    (sortedClusters reads).Nodup ∧
    (∀ c : ℤ, c ∈ sortedClusters reads ↔
      c ∈ reads.map (fun r => r.cluster)) := by
  have hperm : (sortedClusters reads).Perm
      ((reads.map (fun r => r.cluster)).dedup) :=
    List.perm_insertionSort _ _
  refine ⟨?_, ?_, List.sorted_insertionSort _ _,
    (List.nodup_dedup _).perm hperm.symm,
    fun c => by rw [hperm.mem_iff, List.mem_dedup]⟩
  · simp only [get_coverages]
    rw [List.length_map, sortedClusters_sortByRowNum]
  · intro row hrow
    simp only [get_coverages] at hrow
    obtain ⟨c, _, hrw⟩ := List.mem_map.mp hrow
    rw [← hrw, coverage_row_length, List.length_replicate,
      Int.toNat_of_nonneg hw]

/-- Witness for C6 at a window of width 5 and an empty dataframe. -/
theorem c6_get_coverages_shape_witness :
    (0 : ℤ) ≤ 5 - 0 + 2 * 0 ∧
    (((get_coverages [] ['c'] 0 5 0).2.length =
        (sortedClusters []).length) ∧
      (∀ row ∈ (get_coverages [] ['c'] 0 5 0).2,
        (row.length : ℤ) = 5 - 0 + 2 * 0) ∧
      (sortedClusters []).Sorted (fun a b => a ≤ b) ∧
      (sortedClusters []).Nodup ∧
      (∀ c : ℤ, c ∈ sortedClusters [] ↔
        c ∈ ([] : List Read).map (fun r => r.cluster))) :=
  ⟨by decide, c6_get_coverages_shape [] ['c'] 0 5 0 (by decide)⟩

end CoverageModel

